import Mathlib

/-!
Verification of the feed normalizer / filter engine of the hwr-calendar
repository (src/index.ts, function `updateICSFile` and its helpers).

Strings are modelled as `List Char`.  Each JavaScript string operation used by
the source is embedded as an executable Lean function with the same
left-to-right, non-overlapping semantics as the corresponding JS method or
global regex replace.
-/

set_option maxHeartbeats 1000000

/-- JS `String.prototype.startsWith` / regex literal match at the start:
`startsWithL pat s` is true iff `pat` is a prefix of `s`. -/
def startsWithL : List Char → List Char → Bool
  | [], _ => true
  | _ :: _, [] => false
  | p :: ps, c :: cs => p == c && startsWithL ps cs

/-- JS `String.prototype.includes`: `containsSub pat s` is true iff `pat`
occurs as a contiguous substring of `s`. -/
def containsSub (pat : List Char) : List Char → Bool
  | [] => startsWithL pat []
  | c :: rest => startsWithL pat (c :: rest) || containsSub pat rest

/-- JS `s.substring(0, s.indexOf(pat))`: the portion of `s` strictly before
the first occurrence of `pat`; the whole of `s` when `pat` does not occur. -/
def beforeFirst (pat : List Char) : List Char → List Char
  | [] => []
  | c :: rest => if startsWithL pat (c :: rest) then [] else c :: beforeFirst pat rest

/-- JS `s.substring(s.indexOf(pat))`: the portion of `s` from the first
occurrence of `pat` (occurrence included); `[]` when `pat` does not occur. -/
def fromFirst (pat : List Char) : List Char → List Char
  | [] => []
  | c :: rest => if startsWithL pat (c :: rest) then c :: rest else fromFirst pat rest

/-- JS `String.prototype.endsWith`. -/
def endsWithL (pat s : List Char) : Bool :=
  startsWithL pat.reverse s.reverse

/-- JS `s.substring(0, s.lastIndexOf(pat))`: the portion of `s` strictly
before the last occurrence of `pat`.  The last occurrence of `pat` in `s` is
the mirror image of the first occurrence of `pat.reverse` in `s.reverse`. -/
def beforeLast (pat s : List Char) : List Char :=
  (((fromFirst pat.reverse s.reverse).drop pat.length)).reverse

/-- Worker for `splitOn`: JS `String.prototype.split` with a literal nonempty
separator, scanning left to right, accumulating the current piece reversed.
The fuel argument makes the recursion structural; when the separator is
nonempty, fuel equal to the length of the scanned text never runs out, since
each step consumes at least one character. -/
def splitOnGo (pat : List Char) : Nat → List Char → List Char → List (List Char)
  | _, acc, [] => [acc.reverse]
  | 0, acc, s => [acc.reverse ++ s]
  | fuel + 1, acc, c :: rest =>
    if 0 < pat.length ∧ startsWithL pat (c :: rest) = true then
      acc.reverse :: splitOnGo pat fuel [] ((c :: rest).drop pat.length)
    else
      splitOnGo pat fuel (c :: acc) rest

/-- JS `s.split(pat)` for a literal separator `pat`. -/
def splitOn (pat s : List Char) : List (List Char) :=
  splitOnGo pat s.length [] s

/-- JS `s.replace(/\r\n/g, newline)`: collapse each CRLF pair, scanning left
to right without re-examining produced text. -/
def replCRLF : List Char → List Char
  | [] => []
  | [c] => [c]
  | c1 :: c2 :: rest =>
    if c1 == '\r' ∧ c2 == '\n' then '\n' :: replCRLF rest
    else c1 :: replCRLF (c2 :: rest)

/-- JS `s.replace(/\r/g, newline)` applied second: any remaining CR becomes LF. -/
def replCR (s : List Char) : List Char :=
  s.map (fun c => if c == '\r' then '\n' else c)

/-- Line-ending normalization of src/index.ts line 45:
`replace(/\r\n/g, lf).replace(/\r/g, lf)`. -/
def normalizeEOL (s : List Char) : List Char :=
  replCR (replCRLF s)

/-- Space or horizontal tab, the fold characters of the unfold regex. -/
def isBlankChar (c : Char) : Bool :=
  c == ' ' || c == '\t'

/-- JS `s.replace(newline-then-blank, empty)` of src/index.ts line 48: remove
every LF that is immediately followed by a space or tab, together with that
blank, scanning left to right (global regex replace semantics). -/
def unfoldLines : List Char → List Char
  | [] => []
  | [c] => [c]
  | c1 :: c2 :: rest =>
    if c1 == '\n' ∧ isBlankChar c2 then unfoldLines rest
    else c1 :: unfoldLines (c2 :: rest)

/-- JS `s.replace(/\n/g, crlf)` of src/index.ts line 120: expand every LF into
CR LF. -/
def crlfExpand : List Char → List Char
  | [] => []
  | c :: rest =>
    if c == '\n' then '\r' :: '\n' :: crlfExpand rest
    else c :: crlfExpand rest

/-- ECMAScript white space and line terminator characters, the set trimmed by
`String.prototype.trim`. -/
def isJsSpace (c : Char) : Bool :=
  c == ' ' || c == '\t' || c == '\n' || c == '\r' ||
  c.toNat == 0x0b || c.toNat == 0x0c || c.toNat == 0xa0 || c.toNat == 0x1680 ||
  (0x2000 ≤ c.toNat && c.toNat ≤ 0x200a) || c.toNat == 0x2028 || c.toNat == 0x2029 ||
  c.toNat == 0x202f || c.toNat == 0x205f || c.toNat == 0x3000 || c.toNat == 0xfeff

/-- Truthiness of JS `event.trim()` as used in `filter(event => event.trim())`
of src/index.ts line 73: true iff the string has a non-whitespace character. -/
def trimNonEmpty (s : List Char) : Bool :=
  s.any (fun c => !isJsSpace c)

/-- Case folding of the regex `i` flag for the character ranges occurring in
the configured phrases: ASCII letters and the Latin-1 uppercase range
(covering Ä, Ö, Ü of the course titles). -/
def foldChar (c : Char) : Char :=
  if 'A' ≤ c ∧ c ≤ 'Z' then Char.ofNat (c.toNat + 32)
  else if 0xc0 ≤ c.toNat ∧ c.toNat ≤ 0xde ∧ c.toNat ≠ 0xd7 then Char.ofNat (c.toNat + 32)
  else c

/-- Lower-case an entire string for case-insensitive matching. -/
def foldCaseL (s : List Char) : List Char :=
  s.map foldChar

/-- Concatenation of a list of strings, the `forEach` append loop of
src/index.ts lines 106-108. -/
def joinL : List (List Char) → List Char
  | [] => []
  | x :: xs => x ++ joinL xs

/-- Wrapper begin marker literal of src/index.ts. -/
def BEGIN_VCAL : List Char := "BEGIN:VCALENDAR".toList

/-- Wrapper end marker literal of src/index.ts. -/
def END_VCAL : List Char := "END:VCALENDAR".toList

/-- Entry begin marker literal of src/index.ts. -/
def BEGIN_VEVENT : List Char := "BEGIN:VEVENT".toList

/-- Entry end marker literal of src/index.ts. -/
def END_VEVENT : List Char := "END:VEVENT".toList

/-- The configured phrase list `DESCRIPTIONS_TO_DELETE` of src/index.ts. -/
def DESCRIPTIONS_TO_DELETE : List (List Char) :=
  ["Cross Cultural Management".toList,
   "Ethik in Wirtschaft und Gesellschaft".toList,
   "Recht der Künstlichen Intelligenz".toList,
   "Supply Chain Management".toList,
   "Lean Management".toList,
   "Nachhaltiges Wirtschaften".toList,
   "Wirtschaftsenglisch".toList,
   "Ökonometrie".toList,
   "Trends und Zukunft der WI".toList,
   "Theoretische Informatik".toList,
   "Angewandte Wohlfahrtsstaatentheorie".toList]

/-- Semantics of `DESCRIPTION_REGEX.test(event)` (src/index.ts lines 27-34):
the phrases are regex-escaped literals joined by alternation with the `i`
flag, so the test holds iff some phrase occurs case-insensitively in the
event text. -/
def shouldDeleteEvent (phrases : List (List Char)) (event : List Char) : Bool :=
  phrases.any (fun p => containsSub (foldCaseL p) (foldCaseL event))

/-- Structural validation of src/index.ts line 51: both wrapper markers must
occur in the unfolded text. -/
def wrapperOk (u : List Char) : Bool :=
  containsSub BEGIN_VCAL u && containsSub END_VCAL u

/-- Normalization plus unfolding, the preprocessing of src/index.ts
lines 45-48, applied before any structural parsing. -/
def preprocess (raw : List Char) : List Char :=
  unfoldLines (normalizeEOL raw)

/-- Event fragments of src/index.ts line 73: split the events section (the
text from the first entry-begin marker) on the entry-begin marker and keep
only fragments with a non-whitespace character. -/
def eventPartsOf (u : List Char) : List (List Char) :=
  (splitOn BEGIN_VEVENT (fromFirst BEGIN_VEVENT u)).filter trimNonEmpty

/-- Full event texts of src/index.ts lines 78-80: re-attach the entry-begin
marker to each fragment. -/
def fullEventsOf (u : List Char) : List (List Char) :=
  (eventPartsOf u).map (fun part => BEGIN_VEVENT ++ part)

/-- Per-event keep predicate of src/index.ts lines 81-98: an event is kept
iff it contains the entry-end marker and matches no configured phrase. -/
def keepEvent (phrases : List (List Char)) (event : List Char) : Bool :=
  containsSub END_VEVENT event && !shouldDeleteEvent phrases event

/-- The retained events, in source order (src/index.ts lines 78-98). -/
def keptEventsOf (phrases : List (List Char)) (u : List Char) : List (List Char) :=
  (fullEventsOf u).filter (keepEvent phrases)

/-- Reassembly of src/index.ts lines 102-108: calendar header followed by the
retained events in order. -/
def reassembleOf (phrases : List (List Char)) (u : List Char) : List Char :=
  beforeFirst BEGIN_VEVENT u ++ joinL (keptEventsOf phrases u)

/-- Ending fix-up of src/index.ts lines 110-117: if the text does not end
with the wrapper end marker, cut everything from the last end marker (when
one occurs) and append a canonical end marker line. -/
def fixEnding (s : List Char) : List Char :=
  if endsWithL END_VCAL s then s
  else (if containsSub END_VCAL s then beforeLast END_VCAL s else s) ++ END_VCAL ++ ['\n']

/-- The failure of src/index.ts line 52: the thrown
`Invalid ICS file: Missing VCALENDAR wrapper` error. -/
inductive StructuralError
  | missingWrapper
deriving DecidableEq

/-- The cleaning engine of `updateICSFile` (src/index.ts lines 44-124) as a
pure function from the raw feed text and the configured phrase list to either
a structural error or the cleaned output text. -/
def normalize_and_filter (phrases : List (List Char)) (raw : List Char) :
    Except StructuralError (List Char) :=
  let u := preprocess raw
  if wrapperOk u then
    if containsSub BEGIN_VEVENT u then
      Except.ok (crlfExpand (fixEnding (reassembleOf phrases u)))
    else
      Except.ok (crlfExpand u)
  else
    Except.error StructuralError.missingWrapper

/-- The durable-artifact update of `updateICSFile`: on success the stored
artifact is overwritten with the new output; on failure (the catch block of
src/index.ts lines 134-136, entered before any write) the previous artifact
is retained. -/
def updateStore (prev : Option (List Char)) (phrases : List (List Char))
    (raw : List Char) : Option (List Char) :=
  match normalize_and_filter phrases raw with
  | Except.ok o => some o
  | Except.error _ => prev

/-- A text with no fold point: no line feed is immediately followed by a
blank, i.e. the unfold replacement finds nothing to remove. -/
def noFold : List Char → Bool
  | [] => true
  | [_] => true
  | c1 :: c2 :: rest => !(c1 == '\n' && isBlankChar c2) && noFold (c2 :: rest)

/-- A text in which no line feed is immediately followed by two consecutive
blanks. -/
def noDoubleFold : List Char → Bool
  | [] => true
  | [_] => true
  | [_, _] => true
  | c1 :: c2 :: c3 :: rest =>
    !(c1 == '\n' && isBlankChar c2 && isBlankChar c3) && noDoubleFold (c2 :: c3 :: rest)

/-- Number of positions at which `pat` occurs in `s` (starting positions,
overlaps counted). -/
def countOcc (pat : List Char) : List Char → Nat
  | [] => 0
  | c :: rest => (if startsWithL pat (c :: rest) then 1 else 0) + countOcc pat rest

/-- Boolean success test for the engine result. -/
def isOkE : Except StructuralError (List Char) → Bool
  | Except.ok _ => true
  | Except.error _ => false

/-- Worker for `crlfOnly`, carrying the previously seen character. -/
def lfOkFrom (prev : Char) : List Char → Bool
  | [] => true
  | c :: rest => (c != '\n' || prev == '\r') && lfOkFrom c rest

/-- Every line feed in the text is immediately preceded by a carriage return
(and the text does not start with a bare line feed). -/
def crlfOnly (s : List Char) : Bool :=
  lfOkFrom ' ' s

/-- No occurrence of `pat` starts anywhere in `s` (for nonempty `pat` this is
the negation of `containsSub pat s`). -/
def noOcc (pat : List Char) : List Char → Bool
  | [] => true
  | c :: rest => !startsWithL pat (c :: rest) && noOcc pat rest

deriving instance DecidableEq for Except

/-- Characterization of `startsWithL`: boolean prefix test as an existential. -/
theorem startsWithL_iff : ∀ (pat s : List Char), startsWithL pat s = true ↔ ∃ t, s = pat ++ t
  | [], s => by simp [startsWithL]
  | p :: ps, [] => by simp [startsWithL]
  | p :: ps, c :: cs => by
    simp only [startsWithL, Bool.and_eq_true, beq_iff_eq, startsWithL_iff ps cs]
    constructor
    · rintro ⟨rfl, t, rfl⟩
      exact ⟨t, rfl⟩
    · rintro ⟨t, h⟩
      obtain ⟨rfl, rfl⟩ := List.cons.inj h
      exact ⟨rfl, t, rfl⟩

/-- Characterization of `containsSub`: boolean substring test as an existential. -/
theorem containsSub_iff (pat : List Char) :
    ∀ s : List Char, containsSub pat s = true ↔ ∃ a b, s = a ++ pat ++ b
  | [] => by
    simp only [containsSub, startsWithL_iff]
    constructor
    · rintro ⟨t, h⟩
      exact ⟨[], t, by simpa using h⟩
    · rintro ⟨a, b, h⟩
      obtain ⟨ha, hp, hb⟩ := by
        simpa [List.append_eq_nil] using h.symm
      exact ⟨[], by simp [hp, hb]⟩
  | c :: rest => by
    simp only [containsSub, Bool.or_eq_true, startsWithL_iff, containsSub_iff pat rest]
    constructor
    · rintro (⟨t, h⟩ | ⟨a, b, rfl⟩)
      · exact ⟨[], t, by simpa using h⟩
      · exact ⟨c :: a, b, by simp⟩
    · rintro ⟨a, b, h⟩
      cases a with
      | nil => exact Or.inl ⟨b, by simpa using h⟩
      | cons a0 as =>
        obtain ⟨rfl, hrest⟩ := List.cons.inj (by simpa using h)
        exact Or.inr ⟨as, b, by simpa [List.append_assoc] using hrest⟩

/-- Characterization of `endsWithL`: boolean suffix test as an existential. -/
theorem endsWithL_iff (pat s : List Char) :
    endsWithL pat s = true ↔ ∃ a, s = a ++ pat := by
  rw [endsWithL, startsWithL_iff]
  constructor
  · rintro ⟨t, h⟩
    refine ⟨t.reverse, ?_⟩
    have := congrArg List.reverse h
    simpa using this
  · rintro ⟨a, rfl⟩
    exact ⟨a.reverse, by simp⟩

/-- The CRLF expansion distributes over concatenation. -/
theorem crlfExpand_append (a b : List Char) :
    crlfExpand (a ++ b) = crlfExpand a ++ crlfExpand b := by
  induction a with
  | nil => rfl
  | cons c rest ih =>
    by_cases h : c = '\n' <;> simp [crlfExpand, h, ih]

/-- The CRLF expansion leaves a string without line feeds unchanged. -/
theorem crlfExpand_eq_self {s : List Char} (h : '\n' ∉ s) : crlfExpand s = s := by
  induction s with
  | nil => rfl
  | cons c rest ih =>
    have hc : ¬(c = '\n') := fun hc => h (hc ▸ List.mem_cons_self c rest)
    simp only [crlfExpand, beq_iff_eq, if_neg hc]
    exact congrArg (c :: ·) (ih (fun hm => h (List.mem_cons_of_mem c hm)))

/-- Substring occurrences of line-feed-free patterns survive the CRLF expansion. -/
theorem containsSub_crlfExpand {pat s : List Char} (hpat : '\n' ∉ pat)
    (h : containsSub pat s = true) : containsSub pat (crlfExpand s) = true := by
  rw [containsSub_iff] at h ⊢
  obtain ⟨a, b, rfl⟩ := h
  exact ⟨crlfExpand a, crlfExpand b, by
    rw [crlfExpand_append, crlfExpand_append, crlfExpand_eq_self hpat]⟩

/-- The `noFold` predicate is closed under dropping the first character. -/
theorem noFold_tail {c : Char} {t : List Char} (h : noFold (c :: t) = true) :
    noFold t = true := by
  cases t with
  | nil => rfl
  | cons d r =>
    simp only [noFold, Bool.and_eq_true] at h
    exact h.2

/-- The `noDoubleFold` predicate is closed under dropping the first character. -/
theorem noDoubleFold_tail {c : Char} {t : List Char} (h : noDoubleFold (c :: t) = true) :
    noDoubleFold t = true := by
  cases t with
  | nil => rfl
  | cons d r =>
    cases r with
    | nil => rfl
    | cons e r2 =>
      simp only [noDoubleFold, Bool.and_eq_true] at h
      exact h.2

/-- Unfolding does nothing on a text without fold points. -/
theorem unfoldLines_eq_self : ∀ s : List Char, noFold s = true → unfoldLines s = s
  | [], _ => rfl
  | [_], _ => rfl
  | c1 :: c2 :: rest, h => by
    simp only [noFold, Bool.and_eq_true, Bool.not_eq_true'] at h
    have hcond : ¬((c1 == '\n') = true ∧ isBlankChar c2 = true) := by
      rintro ⟨ha, hb⟩
      rw [ha, hb] at h
      simp at h
    simp only [unfoldLines, if_neg hcond]
    exact congrArg (c1 :: ·) (unfoldLines_eq_self (c2 :: rest) h.2)

/-- On a text without double fold points, unfolding leaves no fold point, and
it can only expose a leading blank if the text already started with one. -/
theorem unfoldLines_noFold : ∀ s : List Char, noDoubleFold s = true →
    noFold (unfoldLines s) = true ∧
    (∀ c t, unfoldLines s = c :: t → isBlankChar c = true →
      ∃ d u, s = d :: u ∧ isBlankChar d = true)
  | [], _ => by
    refine ⟨rfl, fun c t hct _ => ?_⟩
    simp [unfoldLines] at hct
  | [c0], _ => by
    refine ⟨rfl, fun c t hct hc => ?_⟩
    simp only [unfoldLines, List.cons.injEq] at hct
    exact ⟨c0, [], rfl, hct.1 ▸ hc⟩
  | c1 :: c2 :: rest, h => by
    by_cases hb : (c1 == '\n') = true ∧ isBlankChar c2 = true
    · simp only [unfoldLines, if_pos hb]
      cases rest with
      | nil =>
        refine ⟨rfl, fun c t hct _ => ?_⟩
        simp [unfoldLines] at hct
      | cons c3 r =>
        have hnb3 : ¬(isBlankChar c3 = true) := by
          simp only [noDoubleFold, Bool.and_eq_true, Bool.not_eq_true'] at h
          intro h3
          rw [hb.1, hb.2, h3] at h
          simp at h
        have hrest : noDoubleFold (c3 :: r) = true :=
          noDoubleFold_tail (noDoubleFold_tail h)
        obtain ⟨ih1, ih2⟩ := unfoldLines_noFold (c3 :: r) hrest
        refine ⟨ih1, fun c t hct hc => ?_⟩
        obtain ⟨d, u, hdu, hd⟩ := ih2 c t hct hc
        obtain ⟨rfl, -⟩ := List.cons.inj hdu
        exact absurd hd hnb3
    · have hrest : noDoubleFold (c2 :: rest) = true := noDoubleFold_tail h
      obtain ⟨ih1, ih2⟩ := unfoldLines_noFold (c2 :: rest) hrest
      simp only [unfoldLines, if_neg hb]
      constructor
      · cases hX : unfoldLines (c2 :: rest) with
        | nil => rfl
        | cons x xs =>
          have hnf : noFold (x :: xs) = true := hX ▸ ih1
          have hnotfold : ¬((c1 == '\n') = true ∧ isBlankChar x = true) := by
            rintro ⟨ha, hx⟩
            obtain ⟨d, u, hdu, hd⟩ := ih2 x xs hX hx
            obtain ⟨rfl, -⟩ := List.cons.inj hdu
            exact hb ⟨ha, hd⟩
          simp only [noFold, Bool.and_eq_true, Bool.not_eq_true']
          refine ⟨?_, hnf⟩
          by_cases ha : (c1 == '\n') = true
          · by_cases hx : isBlankChar x = true
            · exact absurd ⟨ha, hx⟩ hnotfold
            · simp [ha, Bool.not_eq_true] at hx ⊢
              exact hx
          · simp [Bool.not_eq_true] at ha
            simp [ha]
      · intro c t hct hc
        have h1 : c1 = c := (List.cons.inj hct).1
        subst h1
        exact ⟨c1, c2 :: rest, rfl, hc⟩

/-- A suffix occurrence is a substring occurrence. -/
theorem containsSub_of_endsWith {pat s : List Char} (h : endsWithL pat s = true) :
    containsSub pat s = true := by
  rw [endsWithL_iff] at h
  obtain ⟨a, rfl⟩ := h
  rw [containsSub_iff]
  exact ⟨a, [], by simp⟩

/-- The ending fix-up always leaves at least one wrapper end marker in the text. -/
theorem containsSub_fixEnding (s : List Char) :
    containsSub END_VCAL (fixEnding s) = true := by
  unfold fixEnding
  by_cases h : endsWithL END_VCAL s = true
  · simpa [h] using containsSub_of_endsWith h
  · rw [if_neg (by simp [h])]
    rw [containsSub_iff]
    exact ⟨_, ['\n'], rfl⟩

/-- C1 (corrected).  Claim: unfolding is idempotent for every feed text.  As
stated this fails (see the counterexample); it holds for every text in which
no line terminator is immediately followed by two consecutive blanks, because
on such texts one unfold pass leaves no fold point behind. -/
theorem C1_unfold_idempotent_noDoubleFold (s : List Char) (h : noDoubleFold s = true) :
    unfoldLines (unfoldLines s) = unfoldLines s :=
  unfoldLines_eq_self _ ((unfoldLines_noFold s h).1)

/-- Witness for C1: a folded feed line fragment satisfying the side condition,
with the idempotence instance obtained from the theorem. -/
theorem C1_unfold_idempotent_witness :
    noDoubleFold "SUMMARY:Mathe\n 2\nDTSTART:x".toList = true ∧
    unfoldLines (unfoldLines "SUMMARY:Mathe\n 2\nDTSTART:x".toList) =
      unfoldLines "SUMMARY:Mathe\n 2\nDTSTART:x".toList :=
  ⟨by decide, C1_unfold_idempotent_noDoubleFold _ (by decide)⟩

/-- Counterexample to C1 as stated: on the text LF LF blank blank x, one
unfold pass removes the inner LF-blank pair and thereby brings the first LF
next to the second blank, so a second pass removes more. -/
theorem C1_unfold_not_idempotent_cex :
    unfoldLines (unfoldLines ['\n', '\n', ' ', ' ', 'x']) ≠
      unfoldLines ['\n', '\n', ' ', ' ', 'x'] := by
  decide

/-- C2 (corrected).  Claim: a missing wrapper-begin or wrapper-end marker in
the unfolded text is a StructuralError, no output is produced and the stored
artifact is unchanged; moreover exactly one wrapper-begin marker is required.
The error, no-output and retention parts hold; the exactly-one requirement
does not (see the counterexample), only presence is checked. -/
theorem C2_missing_wrapper_structural_error (phrases : List (List Char))
    (raw : List Char) (prev : Option (List Char))
    (h : containsSub BEGIN_VCAL (preprocess raw) = false ∨
      containsSub END_VCAL (preprocess raw) = false) :
    normalize_and_filter phrases raw = Except.error StructuralError.missingWrapper ∧
    updateStore prev phrases raw = prev := by
  have hw : wrapperOk (preprocess raw) = false := by
    rcases h with h | h <;> simp [wrapperOk, h]
  refine ⟨by simp [normalize_and_filter, hw], ?_⟩
  simp [updateStore, normalize_and_filter, hw]

/-- Witness for C2: a feed with no wrapper markers at all is rejected and the
previously stored artifact survives. -/
theorem C2_missing_wrapper_witness :
    containsSub BEGIN_VCAL (preprocess "hello world".toList) = false ∧
    normalize_and_filter [] "hello world".toList =
      Except.error StructuralError.missingWrapper ∧
    updateStore (some ['a']) [] "hello world".toList = some ['a'] :=
  ⟨by decide,
    (C2_missing_wrapper_structural_error [] "hello world".toList (some ['a'])
      (Or.inl (by decide))).1,
    (C2_missing_wrapper_structural_error [] "hello world".toList (some ['a'])
      (Or.inl (by decide))).2⟩

/-- Counterexample to the exactly-one part of C2: a feed whose unfolded text
contains the wrapper-begin marker twice is accepted, not rejected. -/
theorem C2_duplicate_begin_accepted_cex :
    countOcc BEGIN_VCAL
        (preprocess "BEGIN:VCALENDAR\nBEGIN:VCALENDAR\nEND:VCALENDAR".toList) = 2 ∧
    isOkE (normalize_and_filter []
        "BEGIN:VCALENDAR\nBEGIN:VCALENDAR\nEND:VCALENDAR".toList) = true := by
  constructor
  · decide
  · decide

/-- C3 (corrected).  Claim: every successful output contains exactly one
wrapper-begin and one wrapper-end marker, begin before end, regardless of
duplication in the input.  As stated this fails: duplicated markers are passed
through uncollapsed (see the counterexample), and the begin marker may even be
missing from the output.  What does hold is that every successful output
contains at least one wrapper-end marker. -/
theorem C3_output_has_end_marker (phrases : List (List Char)) (raw : List Char)
    (o : List Char) (h : normalize_and_filter phrases raw = Except.ok o) :
    containsSub END_VCAL o = true := by
  have hnl : '\n' ∉ END_VCAL := by decide
  by_cases hw : wrapperOk (preprocess raw) = true
  · simp only [normalize_and_filter, hw, if_true] at h
    by_cases hv : containsSub BEGIN_VEVENT (preprocess raw) = true
    · simp only [hv, if_true, Except.ok.injEq] at h
      exact h ▸ containsSub_crlfExpand hnl (containsSub_fixEnding _)
    · simp only [hv, Bool.false_eq_true, if_false, Except.ok.injEq] at h
      have hend : containsSub END_VCAL (preprocess raw) = true := by
        have hw2 := hw
        simp only [wrapperOk, Bool.and_eq_true] at hw2
        exact hw2.2
      exact h ▸ containsSub_crlfExpand hnl hend
  · simp [normalize_and_filter, hw] at h

/-- Witness for C3 as amended: a plain feed with one event; its output
contains the wrapper end marker. -/
theorem C3_output_has_end_marker_witness :
    containsSub END_VCAL
      "BEGIN:VCALENDAR\r\nBEGIN:VEVENT\r\nEND:VEVENT\r\nEND:VCALENDAR".toList = true :=
  C3_output_has_end_marker []
    "BEGIN:VCALENDAR\nBEGIN:VEVENT\nEND:VEVENT\nEND:VCALENDAR".toList
    "BEGIN:VCALENDAR\r\nBEGIN:VEVENT\r\nEND:VEVENT\r\nEND:VCALENDAR".toList (by decide)

/-- Counterexample to C3 as stated: a successful run whose output contains the
wrapper-begin marker twice. -/
theorem C3_duplicate_begin_in_output_cex :
    normalize_and_filter [] "BEGIN:VCALENDAR\nBEGIN:VCALENDAR\nEND:VCALENDAR".toList =
      Except.ok "BEGIN:VCALENDAR\r\nBEGIN:VCALENDAR\r\nEND:VCALENDAR".toList ∧
    countOcc BEGIN_VCAL "BEGIN:VCALENDAR\r\nBEGIN:VCALENDAR\r\nEND:VCALENDAR".toList = 2 := by
  refine ⟨by decide, by decide⟩

/-- When the pattern does not occur, the portion from the first occurrence is
empty. -/
theorem fromFirst_eq_nil {pat : List Char} :
    ∀ {s : List Char}, containsSub pat s = false → fromFirst pat s = []
  | [], _ => rfl
  | c :: rest, h => by
    have h2 := h
    simp only [containsSub, Bool.or_eq_false_iff] at h2
    simp only [fromFirst, h2.1, Bool.false_eq_true, if_false]
    exact fromFirst_eq_nil h2.2

/-- C4 (corrected).  Claim: for a feed with wrapper markers but no entry-begin
marker, the engine succeeds and its output is exactly the header followed by a
single end marker.  The success part holds unconditionally, but the exact
output shape only holds when the unfolded feed ends with its end marker: the
engine passes the whole unfolded text through, so trailing text or duplicated
end markers survive (see the counterexample).  When the unfolded feed is the
header followed by the end marker, the output is that header (CRLF-converted)
followed by the end marker, and the entry list is empty. -/
theorem C4_no_events_output (phrases : List (List Char)) (raw : List Char)
    (H : List Char)
    (hb : containsSub BEGIN_VCAL (preprocess raw) = true)
    (hnoev : containsSub BEGIN_VEVENT (preprocess raw) = false)
    (hsplit : preprocess raw = H ++ END_VCAL) :
    normalize_and_filter phrases raw = Except.ok (crlfExpand H ++ END_VCAL) ∧
    fullEventsOf (preprocess raw) = [] := by
  have hnl : '\n' ∉ END_VCAL := by decide
  have hend : containsSub END_VCAL (preprocess raw) = true := by
    rw [containsSub_iff]
    exact ⟨H, [], by simp [hsplit]⟩
  have hw : wrapperOk (preprocess raw) = true := by
    simp [wrapperOk, hb, hend]
  constructor
  · simp only [normalize_and_filter, hw, if_true, hnoev, Bool.false_eq_true, if_false]
    rw [hsplit, crlfExpand_append, crlfExpand_eq_self hnl]
  · unfold fullEventsOf eventPartsOf
    rw [fromFirst_eq_nil hnoev]
    decide

/-- Witness for C4: a two-line header feed with no events maps to itself in
CRLF form, with an empty entry list. -/
theorem C4_no_events_output_witness :
    normalize_and_filter [] "BEGIN:VCALENDAR\nVERSION:2.0\nEND:VCALENDAR".toList =
      Except.ok (crlfExpand "BEGIN:VCALENDAR\nVERSION:2.0\n".toList ++ END_VCAL) ∧
    fullEventsOf (preprocess "BEGIN:VCALENDAR\nVERSION:2.0\nEND:VCALENDAR".toList) = [] :=
  C4_no_events_output [] "BEGIN:VCALENDAR\nVERSION:2.0\nEND:VCALENDAR".toList
    "BEGIN:VCALENDAR\nVERSION:2.0\n".toList (by decide) (by decide) (by decide)

/-- Counterexample to C4 as stated: a feed with both wrapper markers, no
entry-begin marker, and trailing text after the end marker succeeds, but the
output does not end with the end marker, hence it is not a header followed by
a single end marker. -/
theorem C4_trailing_text_cex :
    normalize_and_filter [] "BEGIN:VCALENDAR\nEND:VCALENDAR\nX".toList =
      Except.ok "BEGIN:VCALENDAR\r\nEND:VCALENDAR\r\nX".toList ∧
    endsWithL END_VCAL "BEGIN:VCALENDAR\r\nEND:VCALENDAR\r\nX".toList = false := by
  constructor
  · decide
  · decide

/-- C5 (confirmed).  An entry fragment lacking the entry-end marker is never
among the retained events, and entry-level corruption never fails the whole
feed: whenever the wrapper markers are present the engine succeeds. -/
theorem C5_unterminated_entry_dropped (phrases : List (List Char)) (raw : List Char)
    (hw : wrapperOk (preprocess raw) = true) :
    isOkE (normalize_and_filter phrases raw) = true ∧
    ∀ e ∈ keptEventsOf phrases (preprocess raw), containsSub END_VEVENT e = true := by
  constructor
  · simp only [normalize_and_filter, hw, if_true]
    split <;> simp [isOkE]
  · intro e he
    have hk : keepEvent phrases e = true := (List.mem_filter.mp he).2
    rw [keepEvent, Bool.and_eq_true] at hk
    exact hk.1

/-- Witness for C5: a feed whose only entry lacks the entry-end marker still
succeeds. -/
theorem C5_unterminated_entry_dropped_witness :
    isOkE (normalize_and_filter []
        "BEGIN:VCALENDAR\nBEGIN:VEVENT\nSUMMARY:x\nEND:VCALENDAR".toList) = true :=
  (C5_unterminated_entry_dropped []
    "BEGIN:VCALENDAR\nBEGIN:VEVENT\nSUMMARY:x\nEND:VCALENDAR".toList (by decide)).1

/-- C6 (confirmed).  A structurally valid entry (it contains the entry-end
marker) is excluded from the retained events exactly when some configured
phrase occurs case-insensitively in its full unfolded text.  The entries are
fragments of the already unfolded feed, so a phrase split across a folded
continuation line in the raw source is matched in its joined form. -/
theorem C6_phrase_filter_iff (phrases : List (List Char)) (raw : List Char)
    (e : List Char) (he : e ∈ fullEventsOf (preprocess raw))
    (hend : containsSub END_VEVENT e = true) :
    e ∉ keptEventsOf phrases (preprocess raw) ↔
      ∃ p ∈ phrases, containsSub (foldCaseL p) (foldCaseL e) = true := by
  unfold keptEventsOf
  rw [List.mem_filter]
  constructor
  · intro hnot
    have hsd : shouldDeleteEvent phrases e = true := by
      cases hsd : shouldDeleteEvent phrases e
      · exact absurd ⟨he, by rw [keepEvent, hend, hsd]; rfl⟩ hnot
      · rfl
    simpa [shouldDeleteEvent, List.any_eq_true] using hsd
  · rintro ⟨p, hp, hcs⟩ ⟨-, hk⟩
    have hsd : shouldDeleteEvent phrases e = true := by
      rw [shouldDeleteEvent, List.any_eq_true]
      exact ⟨p, hp, hcs⟩
    rw [keepEvent, hsd] at hk
    simp at hk

/-- Witness for C6: an entry whose blocked phrase is split across a folded
continuation line in the raw feed; after unfolding it matches and the entry is
excluded. -/
theorem C6_phrase_filter_iff_witness :
    ("BEGIN:VEVENT\nSUMMARY:Supply Chain Management\nEND:VEVENT\nEND:VCALENDAR".toList ∈
      fullEventsOf (preprocess
        "BEGIN:VCALENDAR\nBEGIN:VEVENT\nSUMMARY:Supply Chain\n  Management\nEND:VEVENT\nEND:VCALENDAR".toList)) ∧
    ("BEGIN:VEVENT\nSUMMARY:Supply Chain Management\nEND:VEVENT\nEND:VCALENDAR".toList ∉
      keptEventsOf ["Supply Chain Management".toList]
        (preprocess
          "BEGIN:VCALENDAR\nBEGIN:VEVENT\nSUMMARY:Supply Chain\n  Management\nEND:VEVENT\nEND:VCALENDAR".toList)) :=
  ⟨by decide,
    (C6_phrase_filter_iff ["Supply Chain Management".toList]
      "BEGIN:VCALENDAR\nBEGIN:VEVENT\nSUMMARY:Supply Chain\n  Management\nEND:VEVENT\nEND:VCALENDAR".toList
      "BEGIN:VEVENT\nSUMMARY:Supply Chain Management\nEND:VEVENT\nEND:VCALENDAR".toList
      (by decide) (by decide)).mpr
      ⟨"Supply Chain Management".toList, by simp, by decide⟩⟩

/-- C7 (confirmed).  The retained events are a sublist of the input events:
filtering keeps relative order, never increases the count, and every output
entry is literally one of the input entries. -/
theorem C7_filter_subsequence (phrases : List (List Char)) (raw : List Char) :
    List.Sublist (keptEventsOf phrases (preprocess raw)) (fullEventsOf (preprocess raw)) ∧
    (keptEventsOf phrases (preprocess raw)).length ≤
      (fullEventsOf (preprocess raw)).length ∧
    ∀ e ∈ keptEventsOf phrases (preprocess raw), e ∈ fullEventsOf (preprocess raw) := by
  refine ⟨List.filter_sublist _, (List.filter_sublist _).length_le, ?_⟩
  intro e he
  exact List.mem_of_mem_filter he

/-- Every CRLF-expanded text has each line feed preceded by a carriage return,
whatever character precedes the text. -/
theorem lfOkFrom_crlfExpand : ∀ (s : List Char) (prev : Char),
    lfOkFrom prev (crlfExpand s) = true
  | [], _ => rfl
  | c :: rest, prev => by
    cases h : (c == '\n') with
    | true =>
      have hc : c = '\n' := by simpa using h
      subst hc
      simp [crlfExpand, lfOkFrom, lfOkFrom_crlfExpand rest '\n']
    | false =>
      have hc : ¬c = '\n' := by simpa using h
      simp only [crlfExpand, h, Bool.false_eq_true, if_false]
      simp [lfOkFrom, hc, lfOkFrom_crlfExpand rest c]

/-- C8 (confirmed).  Every successful output uses CRLF terminators only: no
line feed in the output lacks an immediately preceding carriage return. -/
theorem C8_output_crlf_only (phrases : List (List Char)) (raw : List Char)
    (o : List Char) (h : normalize_and_filter phrases raw = Except.ok o) :
    crlfOnly o = true := by
  by_cases hw : wrapperOk (preprocess raw) = true
  · simp only [normalize_and_filter, hw, if_true] at h
    by_cases hv : containsSub BEGIN_VEVENT (preprocess raw) = true
    · simp only [hv, if_true, Except.ok.injEq] at h
      exact h ▸ lfOkFrom_crlfExpand _ _
    · simp only [hv, Bool.false_eq_true, if_false, Except.ok.injEq] at h
      exact h ▸ lfOkFrom_crlfExpand _ _
  · simp [normalize_and_filter, hw] at h

/-- Witness for C8: the output for a feed with LF-only input terminators
satisfies the CRLF-only check. -/
theorem C8_output_crlf_only_witness :
    normalize_and_filter [] "BEGIN:VCALENDAR\nBEGIN:VEVENT\nEND:VEVENT\nEND:VCALENDAR".toList =
      Except.ok
        "BEGIN:VCALENDAR\r\nBEGIN:VEVENT\r\nEND:VEVENT\r\nEND:VCALENDAR".toList ∧
    crlfOnly "BEGIN:VCALENDAR\r\nBEGIN:VEVENT\r\nEND:VEVENT\r\nEND:VCALENDAR".toList = true :=
  ⟨by decide,
    C8_output_crlf_only [] "BEGIN:VCALENDAR\nBEGIN:VEVENT\nEND:VEVENT\nEND:VCALENDAR".toList
      _ (by decide)⟩

/-- C9 (confirmed).  The cleaning transformation is a pure function of the raw
text and the phrase list: two runs on the same inputs produce identical
results. -/
theorem C9_deterministic (phrases : List (List Char)) (raw : List Char)
    (r1 r2 : Except StructuralError (List Char))
    (h1 : normalize_and_filter phrases raw = r1)
    (h2 : normalize_and_filter phrases raw = r2) : r1 = r2 :=
  h1 ▸ h2 ▸ rfl

/-- Witness for C9: two evaluations of the engine on a concrete feed agree. -/
theorem C9_deterministic_witness :
    normalize_and_filter [] "BEGIN:VCALENDAR\nEND:VCALENDAR".toList =
      normalize_and_filter [] "BEGIN:VCALENDAR\nEND:VCALENDAR".toList :=
  C9_deterministic [] "BEGIN:VCALENDAR\nEND:VCALENDAR".toList _ _ rfl rfl

/-- The text splits as the portion before the first occurrence followed by the
portion from the first occurrence. -/
theorem beforeFirst_append_fromFirst (pat : List Char) :
    ∀ s : List Char, beforeFirst pat s ++ fromFirst pat s = s
  | [] => rfl
  | c :: rest => by
    by_cases h : startsWithL pat (c :: rest) = true
    · simp [beforeFirst, fromFirst, h]
    · simp [beforeFirst, fromFirst, h, beforeFirst_append_fromFirst pat rest]

/-- A prefix test transfers along extension of the tested text. -/
theorem startsWithL_extend {pat X Y : List Char} (h : startsWithL pat X = true)
    (hXY : ∃ t, Y = X ++ t) : startsWithL pat Y = true := by
  rw [startsWithL_iff] at h ⊢
  obtain ⟨t, rfl⟩ := h
  obtain ⟨u, rfl⟩ := hXY
  exact ⟨t ++ u, by simp⟩

/-- The portion before the first occurrence contains no occurrence of the
pattern. -/
theorem noOcc_beforeFirst (pat : List Char) :
    ∀ s : List Char, noOcc pat (beforeFirst pat s) = true
  | [] => rfl
  | c :: rest => by
    by_cases h : startsWithL pat (c :: rest) = true
    · simp [beforeFirst, h, noOcc]
    · simp only [beforeFirst, h, if_false]
      simp only [noOcc, Bool.and_eq_true, Bool.not_eq_true']
      refine ⟨?_, noOcc_beforeFirst pat rest⟩
      cases hs : startsWithL pat (c :: beforeFirst pat rest)
      · rfl
      · exact absurd
          (startsWithL_extend hs
            ⟨fromFirst pat rest, by simp [beforeFirst_append_fromFirst pat rest]⟩) h

/-- With a nonempty pattern, absence of occurrences means no match at any
dropped position. -/
theorem noOcc_drop {pat : List Char} (hne : pat ≠ []) :
    ∀ (A : List Char) (i : Nat), noOcc pat A = true → startsWithL pat (A.drop i) = false
  | [], _, _ => by
    cases pat with
    | nil => exact absurd rfl hne
    | cons p ps => simp [startsWithL]
  | a :: A', 0, h => by
    simp only [noOcc, Bool.and_eq_true, Bool.not_eq_true'] at h
    simpa using h.1
  | a :: A', i + 1, h => by
    simp only [noOcc, Bool.and_eq_true] at h
    simpa using noOcc_drop hne A' i h.2

/-- A short prefix match against a text that starts with the pattern is an
initial segment of the pattern. -/
theorem startsWithL_take {q B pat : List Char} (hB : startsWithL pat B = true)
    (hq : startsWithL q B = true) (hlen : q.length ≤ pat.length) :
    q = pat.take q.length := by
  rw [startsWithL_iff] at hB hq
  obtain ⟨t, rfl⟩ := hB
  obtain ⟨u, hu⟩ := hq
  have h1 : q = (pat ++ t).take q.length := by
    rw [hu, List.take_left]
  rw [List.take_append_of_le_length hlen] at h1
  exact h1

/-- A prefix match without CR or LF characters against a CRLF-expanded text
pulls back to the original text. -/
theorem startsWithL_crlfExpand : ∀ (q s : List Char), '\r' ∉ q → '\n' ∉ q →
    startsWithL q (crlfExpand s) = true → startsWithL q s = true
  | [], _, _, _, _ => rfl
  | p :: ps, [], _, _, h => by
    simp [crlfExpand, startsWithL] at h
  | p :: ps, d :: t, hr, hn, h => by
    cases hd : (d == '\n') with
    | true =>
      have hd' : d = '\n' := by simpa using hd
      subst hd'
      simp only [crlfExpand, beq_self_eq_true, if_true] at h
      simp only [startsWithL, Bool.and_eq_true, beq_iff_eq] at h
      exfalso
      apply hr
      rw [h.1]
      exact List.mem_cons_self _ _
    | false =>
      simp only [crlfExpand, hd, Bool.false_eq_true, if_false] at h
      simp only [startsWithL, Bool.and_eq_true, beq_iff_eq] at h ⊢
      refine ⟨h.1, ?_⟩
      exact startsWithL_crlfExpand ps t
        (fun hm => hr (List.mem_cons_of_mem p hm))
        (fun hm => hn (List.mem_cons_of_mem p hm)) h.2

/-- Absence of a CR-free, LF-free pattern is preserved by CRLF expansion. -/
theorem noOcc_crlfExpand {pat : List Char} (hr : '\r' ∉ pat) (hn : '\n' ∉ pat)
    (hne : pat ≠ []) : ∀ s : List Char, noOcc pat s = true → noOcc pat (crlfExpand s) = true
  | [], _ => rfl
  | c :: t, h => by
    have htail : noOcc pat t = true := by
      simp only [noOcc, Bool.and_eq_true] at h
      exact h.2
    have hhead : startsWithL pat (c :: t) = false := by
      simp only [noOcc, Bool.and_eq_true, Bool.not_eq_true'] at h
      exact h.1
    have hih := noOcc_crlfExpand hr hn hne t htail
    obtain ⟨p, ps, rfl⟩ : ∃ p ps, pat = p :: ps := by
      cases pat with
      | nil => exact absurd rfl hne
      | cons p ps => exact ⟨p, ps, rfl⟩
    have hp_r : (p == '\r') = false := by
      simp only [List.mem_cons, not_or] at hr
      simpa [beq_eq_false_iff_ne] using fun hh => hr.1 hh.symm
    have hp_n : (p == '\n') = false := by
      simp only [List.mem_cons, not_or] at hn
      simpa [beq_eq_false_iff_ne] using fun hh => hn.1 hh.symm
    cases hc : (c == '\n') with
    | true =>
      have hc' : c = '\n' := by simpa using hc
      subst hc'
      simp only [crlfExpand, beq_self_eq_true, if_true]
      simp only [noOcc, Bool.and_eq_true, Bool.not_eq_true']
      refine ⟨by simp [startsWithL, hp_r], by simp [startsWithL, hp_n], hih⟩
    | false =>
      simp only [crlfExpand, hc, Bool.false_eq_true, if_false]
      simp only [noOcc, Bool.and_eq_true, Bool.not_eq_true']
      refine ⟨?_, hih⟩
      cases hsw : startsWithL (p :: ps) (c :: crlfExpand t)
      · rfl
      · exfalso
        have hexp : crlfExpand (c :: t) = c :: crlfExpand t := by
          simp [crlfExpand, hc]
        have hpull : startsWithL (p :: ps) (c :: t) = true :=
          startsWithL_crlfExpand (p :: ps) (c :: t) hr hn (by rw [hexp]; exact hsw)
        rw [hhead] at hpull
        exact Bool.false_ne_true hpull

/-- No-straddle: for a nonempty pattern with no self-overlap that is absent
from `A` and matches at the head of `B`, no occurrence of the pattern starts
strictly inside `A` in `A ++ B`. -/
theorem noOcc_append_startsWith {pat : List Char} (hne : pat ≠ [])
    (hborder : ∀ k, k < pat.length → 0 < k →
      ¬pat.drop k = pat.take (pat.length - k))
    {A B : List Char} (hA : noOcc pat A = true) (hB : startsWithL pat B = true) :
    ∀ i, i < A.length → startsWithL pat ((A ++ B).drop i) = false := by
  intro i hi
  rw [List.drop_append_of_le_length (le_of_lt hi)]
  have hXlen : 0 < (A.drop i).length := by
    simp only [List.length_drop]
    omega
  cases hc : startsWithL pat (A.drop i ++ B)
  · rfl
  · exfalso
    by_cases hlen : pat.length ≤ (A.drop i).length
    · have hX : startsWithL pat (A.drop i) = true := by
        rw [startsWithL_iff] at hc ⊢
        obtain ⟨t, ht⟩ := hc
        have hp : pat = (A.drop i).take pat.length := by
          have h1 : (A.drop i ++ B).take pat.length = pat := by
            rw [ht, List.take_left]
          rw [List.take_append_of_le_length hlen] at h1
          exact h1.symm
        refine ⟨(A.drop i).drop pat.length, ?_⟩
        calc A.drop i
            = (A.drop i).take pat.length ++ (A.drop i).drop pat.length :=
              (List.take_append_drop _ _).symm
          _ = pat ++ (A.drop i).drop pat.length := by rw [← hp]
      have hno := noOcc_drop hne A i hA
      rw [hno] at hX
      exact Bool.false_ne_true hX
    · push_neg at hlen
      have hXpre : startsWithL (A.drop i) (A.drop i ++ B) = true := by
        rw [startsWithL_iff]
        exact ⟨B, rfl⟩
      have h1 : A.drop i = pat.take (A.drop i).length :=
        startsWithL_take hc hXpre (le_of_lt hlen)
      have h2 : startsWithL (pat.drop (A.drop i).length) B = true := by
        rw [startsWithL_iff] at hc
        obtain ⟨t, ht⟩ := hc
        rw [startsWithL_iff]
        refine ⟨t, ?_⟩
        have hBt : B = (pat ++ t).drop (A.drop i).length := by
          rw [← ht, List.drop_left]
        rw [hBt, List.drop_append_of_le_length (le_of_lt hlen)]
      have h3 : pat.drop (A.drop i).length =
          pat.take (pat.length - (A.drop i).length) := by
        have := startsWithL_take hB h2 (by simp)
        simpa using this
      exact hborder (A.drop i).length hlen hXlen h3

/-- If the pattern matches at the head of `B` and nowhere strictly inside `A`,
the portion of `A ++ B` before the first occurrence is exactly `A`. -/
theorem beforeFirst_append_of_noOcc {pat : List Char} :
    ∀ (A B : List Char), startsWithL pat B = true →
      (∀ i, i < A.length → startsWithL pat ((A ++ B).drop i) = false) →
      beforeFirst pat (A ++ B) = A
  | [], B, hB, _ => by
    cases B with
    | nil => rfl
    | cons b bs => simp [beforeFirst, hB]
  | a :: A', B, hB, hno => by
    have h0 : startsWithL pat (a :: (A' ++ B)) = false := by
      have := hno 0 (by simp)
      simpa using this
    show (if startsWithL pat (a :: (A' ++ B)) = true then []
      else a :: beforeFirst pat (A' ++ B)) = a :: A'
    rw [if_neg (by rw [h0]; exact Bool.false_ne_true)]
    congr 1
    refine beforeFirst_append_of_noOcc A' B hB (fun i hi => ?_)
    have := hno (i + 1) (by simpa using Nat.succ_lt_succ hi)
    simpa using this

/-- Every retained event starts with the entry-begin marker. -/
theorem keptEventsOf_startsWith (phrases : List (List Char)) (u : List Char) :
    ∀ e ∈ keptEventsOf phrases u, ∃ part, e = BEGIN_VEVENT ++ part := by
  intro e he
  have hfull : e ∈ fullEventsOf u := List.mem_of_mem_filter he
  obtain ⟨part, -, hpe⟩ := List.mem_map.mp hfull
  exact ⟨part, hpe.symm⟩

/-- The ending fix-up does nothing when the text already ends with the
wrapper end marker. -/
theorem fixEnding_of_endsWith {s : List Char} (h : endsWithL END_VCAL s = true) :
    fixEnding s = s := by
  simp [fixEnding, h]

/-- C10 (corrected).  Claim: for every feed with at least one entry-begin
marker, the portion of the output before the first entry-begin marker equals
the corresponding portion of the unfolded, normalized input, unchanged by
which entries were dropped.  As stated this fails: when every entry is
dropped, the output contains no entry-begin marker at all and its pre-marker
portion is the whole repaired feed (see the counterexample), and the output is
CRLF-converted while the internal form uses bare LF.  The frame property does
hold whenever at least one entry is retained and the reassembled text already
ends with the wrapper end marker: the output portion before the first
entry-begin marker is exactly the CRLF conversion of the input header. -/
theorem C10_header_preserved (phrases : List (List Char)) (raw : List Char)
    (o : List Char)
    (hv : containsSub BEGIN_VEVENT (preprocess raw) = true)
    (hkept : keptEventsOf phrases (preprocess raw) ≠ [])
    (hends : endsWithL END_VCAL (reassembleOf phrases (preprocess raw)) = true)
    (ho : normalize_and_filter phrases raw = Except.ok o) :
    beforeFirst BEGIN_VEVENT o =
      crlfExpand (beforeFirst BEGIN_VEVENT (preprocess raw)) := by
  by_cases hw : wrapperOk (preprocess raw) = true
  · simp only [normalize_and_filter, hw, if_true, hv, Except.ok.injEq] at ho
    rw [fixEnding_of_endsWith hends] at ho
    cases hk : keptEventsOf phrases (preprocess raw) with
    | nil => exact absurd hk hkept
    | cons e es =>
      obtain ⟨part, hpart⟩ :=
        keptEventsOf_startsWith phrases (preprocess raw) e
          (hk ▸ List.mem_cons_self e es)
      have hjoin : joinL (keptEventsOf phrases (preprocess raw)) =
          BEGIN_VEVENT ++ (part ++ joinL es) := by
        rw [hk, joinL, hpart, List.append_assoc]
      have hmarknl : '\n' ∉ BEGIN_VEVENT := by decide
      have hB : startsWithL BEGIN_VEVENT
          (crlfExpand (joinL (keptEventsOf phrases (preprocess raw)))) = true := by
        rw [hjoin, crlfExpand_append, crlfExpand_eq_self hmarknl, startsWithL_iff]
        exact ⟨crlfExpand (part ++ joinL es), rfl⟩
      have hA : noOcc BEGIN_VEVENT
          (crlfExpand (beforeFirst BEGIN_VEVENT (preprocess raw))) = true :=
        noOcc_crlfExpand (by decide) (by decide) (by decide) _
          (noOcc_beforeFirst _ (preprocess raw))
      have hstr := @noOcc_append_startsWith BEGIN_VEVENT (by decide)
        (by decide) _ _ hA hB
      have hbf := beforeFirst_append_of_noOcc
        (crlfExpand (beforeFirst BEGIN_VEVENT (preprocess raw)))
        (crlfExpand (joinL (keptEventsOf phrases (preprocess raw)))) hB hstr
      rw [← ho, reassembleOf, crlfExpand_append]
      exact hbf
  · simp [normalize_and_filter, hw] at ho

/-- Witness for C10: a feed with a header line, one retained entry, and the
end marker attached to the entry tail; the output portion before the first
entry-begin marker is the CRLF-converted header. -/
theorem C10_header_preserved_witness :
    normalize_and_filter []
        "BEGIN:VCALENDAR\nX:1\nBEGIN:VEVENT\nSUMMARY:ok\nEND:VEVENT\nEND:VCALENDAR".toList =
      Except.ok
        "BEGIN:VCALENDAR\r\nX:1\r\nBEGIN:VEVENT\r\nSUMMARY:ok\r\nEND:VEVENT\r\nEND:VCALENDAR".toList ∧
    beforeFirst BEGIN_VEVENT
        "BEGIN:VCALENDAR\r\nX:1\r\nBEGIN:VEVENT\r\nSUMMARY:ok\r\nEND:VEVENT\r\nEND:VCALENDAR".toList =
      crlfExpand (beforeFirst BEGIN_VEVENT
        (preprocess
          "BEGIN:VCALENDAR\nX:1\nBEGIN:VEVENT\nSUMMARY:ok\nEND:VEVENT\nEND:VCALENDAR".toList)) :=
  ⟨by decide,
    C10_header_preserved []
      "BEGIN:VCALENDAR\nX:1\nBEGIN:VEVENT\nSUMMARY:ok\nEND:VEVENT\nEND:VCALENDAR".toList
      _ (by decide) (by decide) (by decide) (by decide)⟩

/-- Counterexample to C10 as stated: when the only entry is dropped by the
phrase filter, the output contains no entry-begin marker, so its portion
before the first entry-begin marker is the whole repaired feed and differs
from the input header under both the verbatim and the CRLF reading. -/
theorem C10_all_dropped_cex :
    normalize_and_filter ["zzz".toList]
        "BEGIN:VCALENDAR\nA:1\nBEGIN:VEVENT\nSUMMARY:zzz\nEND:VEVENT\nEND:VCALENDAR".toList =
      Except.ok "BEGIN:VCALENDAR\r\nA:1\r\nEND:VCALENDAR\r\n".toList ∧
    beforeFirst BEGIN_VEVENT "BEGIN:VCALENDAR\r\nA:1\r\nEND:VCALENDAR\r\n".toList ≠
      beforeFirst BEGIN_VEVENT
        (preprocess
          "BEGIN:VCALENDAR\nA:1\nBEGIN:VEVENT\nSUMMARY:zzz\nEND:VEVENT\nEND:VCALENDAR".toList) ∧
    beforeFirst BEGIN_VEVENT "BEGIN:VCALENDAR\r\nA:1\r\nEND:VCALENDAR\r\n".toList ≠
      crlfExpand (beforeFirst BEGIN_VEVENT
        (preprocess
          "BEGIN:VCALENDAR\nA:1\nBEGIN:VEVENT\nSUMMARY:zzz\nEND:VEVENT\nEND:VCALENDAR".toList)) := by
  refine ⟨by decide, by decide, by decide⟩
